import Mathlib

/-!
Verification of the streaming UTF-16 codec in `src/libstd/encoding/utf16.rs`
(with the resolution enums from `src/libstd/encoding/mod.rs`).

Shallow embedding conventions:
* Rust `char` and `u8`/`u16`/`u32` values are modelled as `Nat`.  The source
  bytes are `u8`, so every byte handled below is `< 256`; the 16-bit
  combination `(a as u16 << 8) | (b as u16)` of two bytes is written
  `a * 256 + b`, which is equal to it for bytes.  Shifts and masks on
  in-range values (`>> 10`, `& 0x3FF`) are written `/ 1024` and `% 1024`.
* The pluggable condition handlers (`invalid_byte::cond`, `out_of_range::cond`
  with `raise_default`) are modelled as explicit policy functions passed to
  `next`; the default handlers of the source are `defaultInvalidByte` and
  `defaultOutOfRange`.
* `fail!` is modelled as `Except.error ()`; every `next` returns
  `Except Unit (Option out × state)`.
* The encoder's `buf : [u8, ..4]` with cursors `lo`/`hi` is represented by the
  staged byte list `buf[lo..hi]`; the decoder's `iter: Option<T>` over a byte
  iterator is `Option (List Nat)`.
* A full encode/decode session (repeatedly calling `next` until it yields
  `None` or fails) is `run`, defined through a fuel-indexed `runF` plus a
  proof that `measure + 1` fuel always suffices.
-/

namespace Utf16

/-- The Unicode replacement character U+FFFD (`char::ReplacementChar`). -/
def ReplacementChar : Nat := 0xFFFD

/-- mod.rs lines 29-40: resolution options for the `invalid_byte` condition. -/
inductive InvalidByteResolution where
  | DecodeAsReplacementChar
  | DecodeAs (c : Nat)
  | SkipInvalidByte
  | TruncateDecoding
  | FailDecoding
deriving DecidableEq, Repr

/-- mod.rs lines 54-65: resolution options for the `out_of_range` condition. -/
inductive OutOfRangeResolution where
  | EncodeAsReplacementChar
  | EncodeAs (c : Nat)
  | SkipOutOfRangeChar
  | TruncateEncoding
  | FailEncoding
deriving DecidableEq, Repr

/-- The default handler of the `invalid_byte` condition (utf16.rs lines 163,
215: `cond.raise_default(_, || DecodeAsReplacementChar)`). -/
def defaultInvalidByte : Option (List Nat) → InvalidByteResolution :=
  fun _ => .DecodeAsReplacementChar

/-- The default handler of the `out_of_range` condition (utf16.rs line 85:
`cond.raise_default(_, || EncodeAsReplacementChar)`). -/
def defaultOutOfRange : Nat → OutOfRangeResolution :=
  fun _ => .EncodeAsReplacementChar

/-- utf16.rs lines 81-83, `is_valid` inside `UTF16Encoder::next`:
`(c < 0xD800 || c > 0xDBFF) && (c < 0xDC00 || c > 0xDFFF) && c <= 0x10FFFF`. -/
def is_valid (c : Nat) : Bool :=
  decide ((c < 0xD800 ∨ 0xDBFF < c) ∧ (c < 0xDC00 ∨ 0xDFFF < c) ∧ c ≤ 0x10FFFF)

/-- `u.iter_bytes(!big)` for a `u16` value `u`: its two bytes, most
significant first when `big` is true (utf16.rs lines 73, 102, 107). -/
def u16Bytes (big : Bool) (u : Nat) : List Nat :=
  if big then [u / 256 % 256, u % 256] else [u % 256, u / 256 % 256]

/-- utf16.rs lines 96-108: the bytes staged into `buf` for one validated
scalar `c`.  For `c > 0xFFFF` the source stages the surrogate pair
`lead = 0xD800 + (c' >> 10)`, `trail = 0xDC00 + (c' & 0x3FF)` with
`c' = c - 0x10000`; otherwise the single unit `c as u16`. -/
def encodeCharBytes (big : Bool) (c : Nat) : List Nat :=
  if 0xFFFF < c then
    u16Bytes big (0xD800 + (c - 0x10000) / 1024) ++
      u16Bytes big (0xDC00 + (c - 0x10000) % 1024)
  else
    u16Bytes big (c % 65536)

/-- utf16.rs lines 77-110, the `loop` of `UTF16Encoder::next` that is entered
when the buffer is drained: pull code points from the source until one is
accepted (directly valid, or substituted by the `out_of_range` resolution),
skipped characters are consumed, `TruncateEncoding` yields no staged bytes,
and `FailEncoding` (or an invalid substitute, lines 92-94) is `fail!`.
Returns the staged bytes (if any) together with the not-yet-consumed source. -/
def pullEncode (p : Nat → OutOfRangeResolution) (big : Bool) :
    List Nat → Except Unit (Option (List Nat) × List Nat)
  | [] => .ok (none, [])
  | c :: rest =>
    if is_valid c then .ok (some (encodeCharBytes big c), rest)
    else
      match p c with
      | .EncodeAsReplacementChar =>
        if is_valid ReplacementChar then
          .ok (some (encodeCharBytes big ReplacementChar), rest)
        else .error ()
      | .EncodeAs c2 =>
        if is_valid c2 then .ok (some (encodeCharBytes big c2), rest)
        else .error ()
      | .SkipOutOfRangeChar => pullEncode p big rest
      | .TruncateEncoding => .ok (none, rest)
      | .FailEncoding => .error ()

/-- utf16.rs lines 57-64: `UTF16Encoder` state.  `buf` is the staged slice
`buf[lo..hi]` of the fixed 4-byte buffer. -/
structure UTF16Encoder where
  iter : List Nat
  bom : Bool
  big : Bool
  buf : List Nat
deriving DecidableEq, Repr

/-- utf16.rs lines 68-115, `UTF16Encoder::next`: if the BOM is pending, stage
the two bytes of `0xFEFF` (in the configured order) and clear the flag; emit
from the staged buffer if it is nonempty; otherwise pull-and-encode the next
accepted code point and emit its first byte. -/
def UTF16Encoder.next (p : Nat → OutOfRangeResolution) (e : UTF16Encoder) :
    Except Unit (Option Nat × UTF16Encoder) :=
  match if e.bom then u16Bytes e.big 0xFEFF else e.buf with
  | b :: bs => .ok (some b, ⟨e.iter, false, e.big, bs⟩)
  | [] =>
    match pullEncode p e.big e.iter with
    | .error _ => .error ()
    | .ok (none, rest) => .ok (none, ⟨rest, false, e.big, []⟩)
    | .ok (some [], rest) => .ok (none, ⟨rest, false, e.big, []⟩)
    | .ok (some (b :: bs), rest) => .ok (some b, ⟨rest, false, e.big, bs⟩)

/-- Termination measure for an encode session: a pending BOM stands for its 2
staged bytes, plus at most 4 output bytes per unread code point. -/
def UTF16Encoder.measure (e : UTF16Encoder) : Nat :=
  (if e.bom then 2 else e.buf.length) + 4 * e.iter.length

/-- Fuel-indexed encode session: call `next` until it declines or fails. -/
def UTF16Encoder.runF (p : Nat → OutOfRangeResolution) :
    Nat → UTF16Encoder → List Nat
  | 0, _ => []
  | fuel + 1, e =>
    match e.next p with
    | .error _ => []
    | .ok (none, _) => []
    | .ok (some b, e2) => b :: UTF16Encoder.runF p fuel e2

/-- The byte sequence produced by a whole encode session. -/
def UTF16Encoder.run (p : Nat → OutOfRangeResolution) (e : UTF16Encoder) :
    List Nat :=
  UTF16Encoder.runF p (e.measure + 1) e

/-- Outcome of one pass of the decoder's inner `loop`:
`dfail` is `fail!`; `done` is `return None` and `yield` is `return Some ch`,
both carrying the final iterator (`none` once `self.iter = None` was
executed), the final `bom`/`big` flags and the final carried slot `self.c`. -/
inductive DecodeStep where
  | dfail : DecodeStep
  | done (rest : Option (List Nat)) (bom big : Bool) (c : Option Nat)
  | yield (ch : Nat) (rest : Option (List Nat)) (bom big : Bool) (c : Option Nat)
deriving DecidableEq, Repr

/-- utf16.rs lines 184-188: the 16-bit unit of the byte pair `a, b`:
`(a as u16 << 8) | (b as u16)` when big-endian, the swap otherwise (for
`u8` values this shift-or is exactly `a * 256 + b`). -/
def combineUnit (big : Bool) (a b : Nat) : Nat :=
  if big then a * 256 + b else b * 256 + a

/-- utf16.rs lines 155-225, the `loop` of `UTF16Decoder::next`.  Arguments
are the mutable locals and fields read by the loop: the `bom` and `big`
flags, the local `lead : Option<(u16, u8, u8)>` lookahead, the carried slot
`self.c` (always `none` on entry from `next`, set at line 212), and the
remaining bytes of `self.iter`.

* `[]`: `a` is `None` — clean end, `return None` with the iterator alive.
* `[a]`: `b` is `None` — truncated stream; `self.iter = None`, then the
  resolution of `cond.raise_default(None, ..)` decides the result.
* `a :: b :: rest`: while `self.bom` is set, a leading `FE FF` / `FF FE`
  fixes the byte order and is consumed; otherwise the unit is classified as
  high surrogate (hold as `lead`, or — with a lead already held — raise
  `invalid_byte` with the *current* pair `[a, b]`, keeping the old `lead`),
  low surrogate (combine with the held lead via
  `((lead - 0xD800) << 10 | (c - 0xDC00)) + 0x10000`, or raise with `[a, b]`
  when no lead is held), or ordinary (with a held lead: store the current
  scalar into `self.c` and raise with the *lead's* pair; otherwise yield it).
-/
def decodeLoop (p : Option (List Nat) → InvalidByteResolution) :
    Bool → Bool → Option (Nat × Nat × Nat) → Option Nat → List Nat → DecodeStep
  | bom, big, _lead, cslot, [] => .done (some []) bom big cslot
  | bom, big, _lead, cslot, [_a] =>
    match p none with
    | .DecodeAsReplacementChar => .yield ReplacementChar none bom big cslot
    | .DecodeAs ch => .yield ch none bom big cslot
    | .SkipInvalidByte => .done none bom big cslot
    | .TruncateDecoding => .done none bom big cslot
    | .FailDecoding => .dfail
  | bom, big, lead, cslot, a :: b :: rest =>
    if bom ∧ a = 0xFE ∧ b = 0xFF then
      decodeLoop p false true lead cslot rest
    else if bom ∧ a = 0xFF ∧ b = 0xFE then
      decodeLoop p false false lead cslot rest
    else
      if 0xD800 ≤ combineUnit big a b ∧ combineUnit big a b ≤ 0xDBFF then
        match lead with
        | none => decodeLoop p false big (some (combineUnit big a b, a, b)) cslot rest
        | some _ =>
          match p (some [a, b]) with
          | .DecodeAsReplacementChar =>
            .yield ReplacementChar (some rest) false big cslot
          | .DecodeAs ch => .yield ch (some rest) false big cslot
          | .SkipInvalidByte => decodeLoop p false big lead cslot rest
          | .TruncateDecoding => .done (some rest) false big cslot
          | .FailDecoding => .dfail
      else if 0xDC00 ≤ combineUnit big a b ∧ combineUnit big a b ≤ 0xDFFF then
        match lead with
        | some (l, _, _) =>
          .yield ((((l - 0xD800) <<< 10) ||| (combineUnit big a b - 0xDC00)) + 0x10000)
            (some rest) false big cslot
        | none =>
          match p (some [a, b]) with
          | .DecodeAsReplacementChar =>
            .yield ReplacementChar (some rest) false big cslot
          | .DecodeAs ch => .yield ch (some rest) false big cslot
          | .SkipInvalidByte => decodeLoop p false big lead cslot rest
          | .TruncateDecoding => .done (some rest) false big cslot
          | .FailDecoding => .dfail
      else
        match lead with
        | some (_, a2, b2) =>
          match p (some [a2, b2]) with
          | .DecodeAsReplacementChar =>
            .yield ReplacementChar (some rest) false big (some (combineUnit big a b))
          | .DecodeAs ch => .yield ch (some rest) false big (some (combineUnit big a b))
          | .SkipInvalidByte => decodeLoop p false big lead (some (combineUnit big a b)) rest
          | .TruncateDecoding => .done (some rest) false big (some (combineUnit big a b))
          | .FailDecoding => .dfail
        | none => .yield (combineUnit big a b) (some rest) false big cslot

/-- utf16.rs lines 133-138: `UTF16Decoder` state. -/
structure UTF16Decoder where
  iter : Option (List Nat)
  bom : Bool
  big : Bool
  c : Option Nat
deriving DecidableEq, Repr

/-- utf16.rs lines 142-226, `UTF16Decoder::next`: drain `self.c` first
(lines 145-147), then `return None` if the iterator was dropped (lines
149-151), otherwise run the loop with `lead = None`. -/
def UTF16Decoder.next (p : Option (List Nat) → InvalidByteResolution)
    (d : UTF16Decoder) : Except Unit (Option Nat × UTF16Decoder) :=
  match d.c with
  | some ch => .ok (some ch, { d with c := none })
  | none =>
    match d.iter with
    | none => .ok (none, d)
    | some bytes =>
      match decodeLoop p d.bom d.big none none bytes with
      | .dfail => .error ()
      | .done rest bom2 big2 c2 => .ok (none, ⟨rest, bom2, big2, c2⟩)
      | .yield ch rest bom2 big2 c2 => .ok (some ch, ⟨rest, bom2, big2, c2⟩)

/-- Length of the remaining byte stream, 0 for a dropped iterator. -/
def restLen : Option (List Nat) → Nat
  | none => 0
  | some l => l.length

/-- 1 if the carried slot is occupied. -/
def slotCnt : Option Nat → Nat
  | none => 0
  | some _ => 1

/-- Termination measure for a decode session: 2 bytes may produce at most one
output, plus one pending output in the carried slot. -/
def UTF16Decoder.measure (d : UTF16Decoder) : Nat :=
  2 * restLen d.iter + slotCnt d.c

/-- Fuel-indexed decode session: call `next` until it declines or fails. -/
def UTF16Decoder.runF (p : Option (List Nat) → InvalidByteResolution) :
    Nat → UTF16Decoder → List Nat
  | 0, _ => []
  | fuel + 1, d =>
    match d.next p with
    | .error _ => []
    | .ok (none, _) => []
    | .ok (some ch, d2) => ch :: UTF16Decoder.runF p fuel d2

/-- The code points produced by a whole decode session. -/
def UTF16Decoder.run (p : Option (List Nat) → InvalidByteResolution)
    (d : UTF16Decoder) : List Nat :=
  UTF16Decoder.runF p (d.measure + 1) d

/-- utf16.rs lines 23-32: the `utf16` variant enum. -/
inductive Variant where
  | utf16
  | utf16be
  | utf16le
deriving DecidableEq, Repr

/-- utf16.rs lines 34-45: `Encoder::encode` for each variant. -/
def Variant.encode : Variant → List Nat → UTF16Encoder
  | .utf16, src => ⟨src, true, true, []⟩
  | .utf16be, src => ⟨src, false, true, []⟩
  | .utf16le, src => ⟨src, false, false, []⟩

/-- utf16.rs lines 47-55: `Decoder::decode` for each variant. -/
def Variant.decode : Variant → List Nat → UTF16Decoder
  | .utf16, src => ⟨some src, true, true, none⟩
  | .utf16be, src => ⟨some src, false, true, none⟩
  | .utf16le, src => ⟨some src, false, false, none⟩

/-- `uint::max_value` on a 64-bit target. -/
def uintMax : Nat := 2 ^ 64 - 1

/-- utf16.rs lines 228-238, `UTF16Decoder::size_hint`.  `srcHint` is the
size hint reported by the byte source; `self.iter.map_default((0, None), ..)`
replaces it by `(0, None)` once the iterator was dropped.  Then
`lo = if lo == uint::max_value { uint::max_value } else { lo / 4 }` and
`hi = hi.map_consume(|x| x / 2 + x % 2)`. -/
def UTF16Decoder.size_hint (d : UTF16Decoder) (srcHint : Nat × Option Nat) :
    Nat × Option Nat :=
  let lo := match d.iter with | none => 0 | some _ => srcHint.1
  let hi := match d.iter with | none => none | some _ => srcHint.2
  (if lo = uintMax then uintMax else lo / 4,
   hi.map (fun x => x / 2 + x % 2))

/-- The bytes of a whole code-point list, one `encodeCharBytes` group per
scalar; this is what an encode session emits after the optional BOM. -/
def encList (big : Bool) : List Nat → List Nat
  | [] => []
  | c :: s => encodeCharBytes big c ++ encList big s

/-! ### Arithmetic helper -/

/-- Reassembling a surrogate pair: the `(lead | trail)` of the source is an
addition, because the trail part occupies only the low 10 bits. -/
theorem shiftLeft_lor_eq (x y : Nat) (hy : y < 1024) :
    (x <<< 10) ||| y = x * 1024 + y := by
  have hy2 : y < 2 ^ 10 := by simpa using hy
  have h := Nat.mul_add_lt_is_or hy2 x
  rw [Nat.shiftLeft_eq, Nat.mul_comm, ← h]

/-! ### Encoder session lemmas -/

theorem encodeCharBytes_ne_nil (big : Bool) (c : Nat) :
    encodeCharBytes big c ≠ [] := by
  unfold encodeCharBytes u16Bytes
  split <;> split <;> simp

theorem encodeCharBytes_length_le (big : Bool) (c : Nat) :
    (encodeCharBytes big c).length ≤ 4 := by
  unfold encodeCharBytes u16Bytes
  split <;> split <;> simp

theorem pullEncode_some (p : Nat → OutOfRangeResolution) (big : Bool) :
    ∀ (l : List Nat) (bs rest : List Nat),
      pullEncode p big l = .ok (some bs, rest) →
      rest.length < l.length ∧ bs.length ≤ 4 := by
  intro l
  induction l with
  | nil => intro bs rest h; simp [pullEncode] at h
  | cons c s ih =>
    intro bs rest h
    rw [pullEncode] at h
    split at h
    · simp at h
      obtain ⟨h1, h2⟩ := h
      subst h1 h2
      exact ⟨by simp, encodeCharBytes_length_le big c⟩
    · split at h
      · split at h
        · simp at h
          obtain ⟨h1, h2⟩ := h
          subst h1 h2
          exact ⟨by simp, encodeCharBytes_length_le big _⟩
        · simp at h
      · split at h
        · simp at h
          obtain ⟨h1, h2⟩ := h
          subst h1 h2
          exact ⟨by simp, encodeCharBytes_length_le big _⟩
        · simp at h
      · have := ih bs rest h
        exact ⟨Nat.lt_succ_of_lt this.1, this.2⟩
      · simp at h
      · simp at h

theorem encNext_measure (p : Nat → OutOfRangeResolution)
    (e e2 : UTF16Encoder) (b : Nat) (h : e.next p = .ok (some b, e2)) :
    e2.measure < e.measure := by
  obtain ⟨it, bom, big, buf⟩ := e
  cases bom with
  | true =>
    cases big <;>
      · simp [UTF16Encoder.next, u16Bytes] at h
        obtain ⟨h1, h2⟩ := h
        subst h2
        simp [UTF16Encoder.measure]
  | false =>
    cases buf with
    | cons x xs =>
      simp [UTF16Encoder.next] at h
      obtain ⟨h1, h2⟩ := h
      subst h2
      simp [UTF16Encoder.measure]
    | nil =>
      simp only [UTF16Encoder.next, Bool.false_eq_true, if_false] at h
      cases hp : pullEncode p big it with
      | error u => rw [hp] at h; simp at h
      | ok r =>
        obtain ⟨o, rest⟩ := r
        cases o with
        | none => rw [hp] at h; simp at h
        | some bs =>
          rw [hp] at h
          cases bs with
          | nil => simp at h
          | cons b2 bs2 =>
            simp at h
            obtain ⟨h1, h2⟩ := h
            subst h2
            have hb := pullEncode_some p big it (b2 :: bs2) rest hp
            simp [UTF16Encoder.measure] at hb ⊢
            omega

theorem encRunF_irrel (p : Nat → OutOfRangeResolution) :
    ∀ (f1 f2 : Nat) (e : UTF16Encoder), e.measure < f1 → e.measure < f2 →
      UTF16Encoder.runF p f1 e = UTF16Encoder.runF p f2 e := by
  intro f1
  induction f1 with
  | zero => intro f2 e h1; omega
  | succ n ih =>
    intro f2 e h1 h2
    cases f2 with
    | zero => omega
    | succ m =>
      rw [UTF16Encoder.runF, UTF16Encoder.runF]
      cases h : e.next p with
      | error u => rfl
      | ok r =>
        obtain ⟨o, e2⟩ := r
        cases o with
        | none => rfl
        | some b =>
          have hm := encNext_measure p e e2 b h
          simp only
          rw [ih m e2 (by omega) (by omega)]

/-- One-step unfolding of a whole encode session. -/
theorem encRun_eq (p : Nat → OutOfRangeResolution) (e : UTF16Encoder) :
    e.run p = match e.next p with
      | .error _ => []
      | .ok (none, _) => []
      | .ok (some b, e2) => b :: e2.run p := by
  rw [UTF16Encoder.run, UTF16Encoder.runF]
  cases h : e.next p with
  | error u => rfl
  | ok r =>
    obtain ⟨o, e2⟩ := r
    cases o with
    | none => rfl
    | some b =>
      have hm := encNext_measure p e e2 b h
      simp only [UTF16Encoder.run]
      rw [encRunF_irrel p e.measure (e2.measure + 1) e2 hm (by omega)]

/-- Draining the staged buffer emits exactly its bytes. -/
theorem encRun_drain (p : Nat → OutOfRangeResolution) (big : Bool)
    (s : List Nat) :
    ∀ bs : List Nat,
      UTF16Encoder.run p ⟨s, false, big, bs⟩ =
        bs ++ UTF16Encoder.run p ⟨s, false, big, []⟩ := by
  intro bs
  induction bs with
  | nil => simp
  | cons b t ih =>
    rw [encRun_eq]
    have h : UTF16Encoder.next p ⟨s, false, big, b :: t⟩ =
        .ok (some b, ⟨s, false, big, t⟩) := by
      simp [UTF16Encoder.next]
    rw [h]
    simp only
    rw [ih]
    simp

/-- An accepted (valid) code point contributes exactly its staged bytes. -/
theorem encRun_cons (p : Nat → OutOfRangeResolution) (big : Bool)
    (c : Nat) (s : List Nat) (hc : is_valid c = true) :
    UTF16Encoder.run p ⟨c :: s, false, big, []⟩ =
      encodeCharBytes big c ++ UTF16Encoder.run p ⟨s, false, big, []⟩ := by
  rw [encRun_eq]
  have hp : pullEncode p big (c :: s) = .ok (some (encodeCharBytes big c), s) := by
    rw [pullEncode]
    simp [hc]
  cases hE : encodeCharBytes big c with
  | nil => exact absurd hE (encodeCharBytes_ne_nil big c)
  | cons b bs =>
    have h : UTF16Encoder.next p ⟨c :: s, false, big, []⟩ =
        .ok (some b, ⟨s, false, big, bs⟩) := by
      simp [UTF16Encoder.next, hp, hE]
    rw [h]
    simp only
    rw [encRun_drain]
    simp

/-- A BOM-free encode session over accepted code points emits the group
serialization `encList`. -/
theorem encRun_encList (p : Nat → OutOfRangeResolution) (big : Bool)
    (s : List Nat) (h : ∀ c ∈ s, is_valid c = true) :
    UTF16Encoder.run p ⟨s, false, big, []⟩ = encList big s := by
  induction s with
  | nil =>
    rw [encRun_eq]
    have hn : UTF16Encoder.next p ⟨[], false, big, []⟩ =
        .ok (none, ⟨[], false, big, []⟩) := by
      simp [UTF16Encoder.next, pullEncode]
    rw [hn]
    rfl
  | cons c s ih =>
    rw [encRun_cons p big c s (h c (by simp)), encList]
    rw [ih (fun x hx => h x (by simp [hx]))]

/-- A pending BOM emits the two bytes of `0xFEFF` first, whatever was in the
buffer (the source overwrites it, which only happens with an empty buffer). -/
theorem encRun_bom (p : Nat → OutOfRangeResolution) (big : Bool)
    (s bs0 : List Nat) :
    UTF16Encoder.run p ⟨s, true, big, bs0⟩ =
      u16Bytes big 0xFEFF ++ UTF16Encoder.run p ⟨s, false, big, []⟩ := by
  rw [encRun_eq]
  cases big with
  | true =>
    have h : UTF16Encoder.next p ⟨s, true, true, bs0⟩ =
        .ok (some 0xFE, ⟨s, false, true, [0xFF]⟩) := by
      simp [UTF16Encoder.next, u16Bytes]
    rw [h]
    simp only
    rw [encRun_drain]
    simp [u16Bytes]
  | false =>
    have h : UTF16Encoder.next p ⟨s, true, false, bs0⟩ =
        .ok (some 0xFF, ⟨s, false, false, [0xFE]⟩) := by
      simp [UTF16Encoder.next, u16Bytes]
    rw [h]
    simp only
    rw [encRun_drain]
    simp [u16Bytes]

/-! ### Decoder session lemmas -/

theorem decodeLoop_yield_measure (p : Option (List Nat) → InvalidByteResolution) :
    ∀ (n : Nat) (l : List Nat), l.length ≤ n →
      ∀ (bom big : Bool) (lead : Option (Nat × Nat × Nat)) (cslot : Option Nat)
        (ch : Nat) (rest : Option (List Nat)) (bom2 big2 : Bool) (c2 : Option Nat),
        decodeLoop p bom big lead cslot l = .yield ch rest bom2 big2 c2 →
        2 * restLen rest + slotCnt c2 < 2 * l.length + slotCnt cslot := by
  intro n
  induction n with
  | zero =>
    intro l hl bom big lead cslot ch rest bom2 big2 c2 h
    have hnil : l = [] := List.length_eq_zero.mp (Nat.le_zero.mp hl)
    subst hnil
    rw [decodeLoop] at h
    cases h
  | succ n ih =>
    intro l hl bom big lead cslot ch rest bom2 big2 c2 h
    rcases l with _ | ⟨a, _ | ⟨b, l2⟩⟩
    · rw [decodeLoop] at h
      cases h
    · rw [decodeLoop] at h
      split at h <;> cases h <;> (simp only [restLen, slotCnt, List.length]; omega)
    · rcases lead with _ | lv <;>
      · rw [decodeLoop] at h
        repeat' split at h
        all_goals first
          | (have hy := ih l2 (by simp only [List.length] at hl; omega)
                _ _ _ _ _ _ _ _ _ h
             simp only [restLen, slotCnt, List.length] at hy ⊢
             omega)
          | (cases h <;> (simp only [restLen, slotCnt, List.length]; omega))

theorem decNext_measure (p : Option (List Nat) → InvalidByteResolution)
    (d d2 : UTF16Decoder) (ch : Nat) (h : d.next p = .ok (some ch, d2)) :
    d2.measure < d.measure := by
  obtain ⟨it, bom, big, c⟩ := d
  cases c with
  | some c0 =>
    simp [UTF16Decoder.next] at h
    obtain ⟨h1, h2⟩ := h
    subst h2
    simp [UTF16Decoder.measure, slotCnt]
  | none =>
    cases it with
    | none => simp [UTF16Decoder.next] at h
    | some bytes =>
      simp only [UTF16Decoder.next] at h
      cases hd : decodeLoop p bom big none none bytes with
      | dfail => rw [hd] at h; simp at h
      | done rest bom2 big2 c2 => rw [hd] at h; simp at h
      | yield ch2 rest bom2 big2 c2 =>
        rw [hd] at h
        simp at h
        obtain ⟨h1, h2⟩ := h
        subst h2
        have hm := decodeLoop_yield_measure p bytes.length bytes (Nat.le_refl _)
          bom big none none ch2 rest bom2 big2 c2 hd
        simp only [UTF16Decoder.measure, restLen, slotCnt] at hm ⊢
        omega

theorem decRunF_irrel (p : Option (List Nat) → InvalidByteResolution) :
    ∀ (f1 f2 : Nat) (d : UTF16Decoder), d.measure < f1 → d.measure < f2 →
      UTF16Decoder.runF p f1 d = UTF16Decoder.runF p f2 d := by
  intro f1
  induction f1 with
  | zero => intro f2 d h1; omega
  | succ n ih =>
    intro f2 d h1 h2
    cases f2 with
    | zero => omega
    | succ m =>
      rw [UTF16Decoder.runF, UTF16Decoder.runF]
      cases h : d.next p with
      | error u => rfl
      | ok r =>
        obtain ⟨o, d2⟩ := r
        cases o with
        | none => rfl
        | some ch =>
          have hm := decNext_measure p d d2 ch h
          simp only
          rw [ih m d2 (by omega) (by omega)]

/-- One-step unfolding of a whole decode session. -/
theorem decRun_eq (p : Option (List Nat) → InvalidByteResolution)
    (d : UTF16Decoder) :
    d.run p = match d.next p with
      | .error _ => []
      | .ok (none, _) => []
      | .ok (some ch, d2) => ch :: d2.run p := by
  rw [UTF16Decoder.run, UTF16Decoder.runF]
  cases h : d.next p with
  | error u => rfl
  | ok r =>
    obtain ⟨o, d2⟩ := r
    cases o with
    | none => rfl
    | some ch =>
      have hm := decNext_measure p d d2 ch h
      simp only [UTF16Decoder.run]
      rw [decRunF_irrel p d.measure (d2.measure + 1) d2 hm (by omega)]

/-! ### Decoding the encoder's output -/

theorem combine_split_big (u : Nat) (hu : u < 65536) :
    combineUnit true (u / 256 % 256) (u % 256) = u := by
  simp only [combineUnit, if_pos]
  omega

theorem combine_split_little (u : Nat) (hu : u < 65536) :
    combineUnit false (u % 256) (u / 256 % 256) = u := by
  simp only [combineUnit, Bool.false_eq_true, if_false]
  omega

/-- Decoding, with BOM handling already off, the byte group of one valid
scalar yields exactly that scalar and consumes exactly that group. -/
theorem decodeLoop_encodeChar (p : Option (List Nat) → InvalidByteResolution)
    (big : Bool) (c : Nat) (t : List Nat) (hc : is_valid c = true) :
    decodeLoop p false big none none (encodeCharBytes big c ++ t) =
      .yield c (some t) false big none := by
  simp only [is_valid, decide_eq_true_eq] at hc
  obtain ⟨h1, h2, h3⟩ := hc
  by_cases hastral : 0xFFFF < c
  · rw [encodeCharBytes, if_pos hastral]
    have hq : (c - 0x10000) / 1024 ≤ 1023 := by omega
    have hr : (c - 0x10000) % 1024 ≤ 1023 := by omega
    cases big with
    | true =>
      simp only [u16Bytes, if_pos, List.cons_append, List.nil_append]
      rw [decodeLoop]
      rw [if_neg (by simp), if_neg (by simp)]
      rw [combine_split_big _ (by omega)]
      rw [if_pos (by omega)]
      rw [decodeLoop]
      rw [if_neg (by simp), if_neg (by simp)]
      rw [combine_split_big _ (by omega)]
      rw [if_neg (by omega), if_pos (by omega)]
      rw [shiftLeft_lor_eq _ _ (by omega)]
      have hval : (0xD800 + (c - 0x10000) / 1024 - 55296) * 1024 +
          (0xDC00 + (c - 0x10000) % 1024 - 56320) + 65536 = c := by omega
      rw [hval]
    | false =>
      simp only [u16Bytes, Bool.false_eq_true, if_false, List.cons_append,
        List.nil_append]
      rw [decodeLoop]
      rw [if_neg (by simp), if_neg (by simp)]
      rw [combine_split_little _ (by omega)]
      rw [if_pos (by omega)]
      rw [decodeLoop]
      rw [if_neg (by simp), if_neg (by simp)]
      rw [combine_split_little _ (by omega)]
      rw [if_neg (by omega), if_pos (by omega)]
      rw [shiftLeft_lor_eq _ _ (by omega)]
      have hval : (0xD800 + (c - 0x10000) / 1024 - 55296) * 1024 +
          (0xDC00 + (c - 0x10000) % 1024 - 56320) + 65536 = c := by omega
      rw [hval]
  · rw [encodeCharBytes, if_neg hastral, Nat.mod_eq_of_lt (by omega)]
    cases big with
    | true =>
      simp only [u16Bytes, if_pos, List.cons_append, List.nil_append]
      rw [decodeLoop]
      rw [if_neg (by simp), if_neg (by simp)]
      rw [combine_split_big _ (by omega)]
      rw [if_neg (by omega), if_neg (by omega)]
    | false =>
      simp only [u16Bytes, Bool.false_eq_true, if_false, List.cons_append,
        List.nil_append]
      rw [decodeLoop]
      rw [if_neg (by simp), if_neg (by simp)]
      rw [combine_split_little _ (by omega)]
      rw [if_neg (by omega), if_neg (by omega)]

/-- Same as `decodeLoop_encodeChar` with BOM detection still pending: a first
unit that is neither `0xFEFF` nor `0xFFFE` (serialized big-endian) falls
through, turning BOM detection off. -/
theorem decodeLoop_encodeChar_bom (p : Option (List Nat) → InvalidByteResolution)
    (c : Nat) (t : List Nat) (hc : is_valid c = true)
    (hne1 : c ≠ 0xFEFF) (hne2 : c ≠ 0xFFFE) :
    decodeLoop p true true none none (encodeCharBytes true c ++ t) =
      .yield c (some t) false true none := by
  simp only [is_valid, decide_eq_true_eq] at hc
  obtain ⟨h1, h2, h3⟩ := hc
  by_cases hastral : 0xFFFF < c
  · rw [encodeCharBytes, if_pos hastral]
    have hq : (c - 0x10000) / 1024 ≤ 1023 := by omega
    have hr : (c - 0x10000) % 1024 ≤ 1023 := by omega
    simp only [u16Bytes, if_pos, List.cons_append, List.nil_append]
    rw [decodeLoop]
    rw [if_neg (by simp only [true_and]; omega),
        if_neg (by simp only [true_and]; omega)]
    rw [combine_split_big _ (by omega)]
    rw [if_pos (by omega)]
    rw [decodeLoop]
    rw [if_neg (by simp), if_neg (by simp)]
    rw [combine_split_big _ (by omega)]
    rw [if_neg (by omega), if_pos (by omega)]
    rw [shiftLeft_lor_eq _ _ (by omega)]
    have hval : (0xD800 + (c - 0x10000) / 1024 - 55296) * 1024 +
        (0xDC00 + (c - 0x10000) % 1024 - 56320) + 65536 = c := by omega
    rw [hval]
  · rw [encodeCharBytes, if_neg hastral, Nat.mod_eq_of_lt (by omega)]
    simp only [u16Bytes, if_pos, List.cons_append, List.nil_append]
    rw [decodeLoop]
    rw [if_neg (by simp only [true_and]; omega),
        if_neg (by simp only [true_and]; omega)]
    rw [combine_split_big _ (by omega)]
    rw [if_neg (by omega), if_neg (by omega)]

/-- A leading `FE FF` pair is consumed by pending BOM detection. -/
theorem decodeLoop_bom_be (p : Option (List Nat) → InvalidByteResolution)
    (lead : Option (Nat × Nat × Nat)) (cslot : Option Nat) (rest : List Nat) :
    decodeLoop p true true lead cslot (0xFE :: 0xFF :: rest) =
      decodeLoop p false true lead cslot rest := by
  rcases lead with _ | lv <;> rw [decodeLoop] <;> rw [if_pos (by simp)]

theorem decRun_nil (p : Option (List Nat) → InvalidByteResolution)
    (bom big : Bool) :
    UTF16Decoder.run p ⟨some [], bom, big, none⟩ = [] := by
  rw [decRun_eq]
  have hn : UTF16Decoder.next p ⟨some [], bom, big, none⟩ =
      .ok (none, ⟨some [], bom, big, none⟩) := by
    simp [UTF16Decoder.next, decodeLoop]
  rw [hn]

/-- A decode session (BOM handling off) over the serialized groups of
accepted scalars yields those scalars, then continues on the tail. -/
theorem decRun_encList (p : Option (List Nat) → InvalidByteResolution)
    (big : Bool) (s : List Nat) (h : ∀ c ∈ s, is_valid c = true) (t : List Nat) :
    UTF16Decoder.run p ⟨some (encList big s ++ t), false, big, none⟩ =
      s ++ UTF16Decoder.run p ⟨some t, false, big, none⟩ := by
  induction s with
  | nil => simp [encList]
  | cons c s ih =>
    rw [encList, List.append_assoc]
    rw [decRun_eq]
    have hn : UTF16Decoder.next p
        ⟨some (encodeCharBytes big c ++ (encList big s ++ t)), false, big, none⟩ =
        .ok (some c, ⟨some (encList big s ++ t), false, big, none⟩) := by
      simp only [UTF16Decoder.next]
      rw [decodeLoop_encodeChar p big c _ (h c (by simp))]
    rw [hn]
    simp only
    rw [ih (fun x hx => h x (by simp [hx]))]
    simp

/-- With auto-detection pending, a leading `FE FF` is consumed and the
session continues big-endian. -/
theorem decRun_auto_bom (p : Option (List Nat) → InvalidByteResolution)
    (bs : List Nat) :
    UTF16Decoder.run p ⟨some (0xFE :: 0xFF :: bs), true, true, none⟩ =
      UTF16Decoder.run p ⟨some bs, false, true, none⟩ := by
  have hnext : UTF16Decoder.next p ⟨some (0xFE :: 0xFF :: bs), true, true, none⟩ =
      UTF16Decoder.next p ⟨some bs, false, true, none⟩ := by
    simp only [UTF16Decoder.next]
    rw [decodeLoop_bom_be]
  rw [decRun_eq, decRun_eq, hnext]

/-- A decoder whose iterator was dropped produces nothing. -/
theorem decRun_dead (p : Option (List Nat) → InvalidByteResolution)
    (bom big : Bool) :
    UTF16Decoder.run p ⟨none, bom, big, none⟩ = [] := by
  rw [decRun_eq]
  have hn : UTF16Decoder.next p ⟨none, bom, big, none⟩ =
      .ok (none, ⟨none, bom, big, none⟩) := by
    simp [UTF16Decoder.next]
  rw [hn]

/-- A decode session left with a single byte (BOM handling off) is resolved
entirely by the policy's answer to the truncated-tail event. -/
theorem decRun_single (p : Option (List Nat) → InvalidByteResolution)
    (big : Bool) (x : Nat) :
    UTF16Decoder.run p ⟨some [x], false, big, none⟩ =
      match p none with
      | .DecodeAsReplacementChar => [ReplacementChar]
      | .DecodeAs ch => [ch]
      | _ => [] := by
  cases hp : p none with
  | DecodeAsReplacementChar =>
    rw [decRun_eq]
    have hn : UTF16Decoder.next p ⟨some [x], false, big, none⟩ =
        .ok (some ReplacementChar, ⟨none, false, big, none⟩) := by
      simp only [UTF16Decoder.next]
      rw [decodeLoop, hp]
    rw [hn]
    simp only
    rw [decRun_dead]
  | DecodeAs ch =>
    rw [decRun_eq]
    have hn : UTF16Decoder.next p ⟨some [x], false, big, none⟩ =
        .ok (some ch, ⟨none, false, big, none⟩) := by
      simp only [UTF16Decoder.next]
      rw [decodeLoop, hp]
    rw [hn]
    simp only
    rw [decRun_dead]
  | SkipInvalidByte =>
    rw [decRun_eq]
    have hn : UTF16Decoder.next p ⟨some [x], false, big, none⟩ =
        .ok (none, ⟨none, false, big, none⟩) := by
      simp only [UTF16Decoder.next]
      rw [decodeLoop, hp]
    rw [hn]
  | TruncateDecoding =>
    rw [decRun_eq]
    have hn : UTF16Decoder.next p ⟨some [x], false, big, none⟩ =
        .ok (none, ⟨none, false, big, none⟩) := by
      simp only [UTF16Decoder.next]
      rw [decodeLoop, hp]
    rw [hn]
  | FailDecoding =>
    rw [decRun_eq]
    have hn : UTF16Decoder.next p ⟨some [x], false, big, none⟩ = .error () := by
      simp only [UTF16Decoder.next]
      rw [decodeLoop, hp]
    rw [hn]

/-- Under the default policy the loop signals `return None` only at a clean
end of stream: the iterator is alive and empty, and the carried slot is
whatever it was on entry. -/
theorem decodeLoop_done_default :
    ∀ (n : Nat) (l : List Nat), l.length ≤ n →
      ∀ (bom big : Bool) (lead : Option (Nat × Nat × Nat)) (cslot : Option Nat)
        (rest : Option (List Nat)) (bom2 big2 : Bool) (c2 : Option Nat),
        decodeLoop defaultInvalidByte bom big lead cslot l =
          .done rest bom2 big2 c2 →
        rest = some [] ∧ c2 = cslot := by
  intro n
  induction n with
  | zero =>
    intro l hl bom big lead cslot rest bom2 big2 c2 h
    have hnil : l = [] := List.length_eq_zero.mp (Nat.le_zero.mp hl)
    subst hnil
    rw [decodeLoop] at h
    cases h
    exact ⟨rfl, rfl⟩
  | succ n ih =>
    intro l hl bom big lead cslot rest bom2 big2 c2 h
    rcases l with _ | ⟨a, _ | ⟨b, l2⟩⟩
    · rw [decodeLoop] at h
      cases h
      exact ⟨rfl, rfl⟩
    · rw [decodeLoop] at h
      simp only [defaultInvalidByte] at h
      cases h
    · rcases lead with _ | lv <;>
      · rw [decodeLoop] at h
        simp only [defaultInvalidByte] at h
        repeat' split at h
        all_goals first
          | (exact ih l2 (by simp only [List.length] at hl; omega)
              _ _ _ _ _ _ _ _ h)
          | (cases h)

/-! ### Claim theorems -/

/-- Claim C1: for every finite sequence of code points (scalars at most
0x10FFFF) containing no surrogate-range scalar, decoding the encoder's
output with the same variant reproduces the original sequence, for the
big-endian, little-endian and auto (BOM) variants. -/
theorem c1_round_trip (s : List Nat) (h : ∀ c ∈ s, is_valid c = true) :
    (Variant.utf16be.decode
        ((Variant.utf16be.encode s).run defaultOutOfRange)).run
      defaultInvalidByte = s ∧
    (Variant.utf16le.decode
        ((Variant.utf16le.encode s).run defaultOutOfRange)).run
      defaultInvalidByte = s ∧
    (Variant.utf16.decode
        ((Variant.utf16.encode s).run defaultOutOfRange)).run
      defaultInvalidByte = s := by
  have hbe : ∀ big : Bool,
      UTF16Decoder.run defaultInvalidByte ⟨some (encList big s), false, big, none⟩
        = s := by
    intro big
    have hd := decRun_encList defaultInvalidByte big s h []
    rw [List.append_nil] at hd
    rw [hd, decRun_nil, List.append_nil]
  refine ⟨?_, ?_, ?_⟩
  · show UTF16Decoder.run defaultInvalidByte
      (Variant.utf16be.decode (UTF16Encoder.run defaultOutOfRange ⟨s, false, true, []⟩)) = s
    rw [encRun_encList defaultOutOfRange true s h]
    exact hbe true
  · show UTF16Decoder.run defaultInvalidByte
      (Variant.utf16le.decode (UTF16Encoder.run defaultOutOfRange ⟨s, false, false, []⟩)) = s
    rw [encRun_encList defaultOutOfRange false s h]
    exact hbe false
  · show UTF16Decoder.run defaultInvalidByte
      (Variant.utf16.decode (UTF16Encoder.run defaultOutOfRange ⟨s, true, true, []⟩)) = s
    rw [encRun_bom, encRun_encList defaultOutOfRange true s h]
    have hu : u16Bytes true 0xFEFF ++ encList true s =
        0xFE :: 0xFF :: encList true s := by
      simp [u16Bytes]
    rw [hu]
    show UTF16Decoder.run defaultInvalidByte
      ⟨some (0xFE :: 0xFF :: encList true s), true, true, none⟩ = s
    rw [decRun_auto_bom]
    exact hbe true

theorem c1_round_trip_witness :
    (∀ c ∈ [0x74, 0xFEFF, 0x21E33], is_valid c = true) ∧
    ((Variant.utf16be.decode
        ((Variant.utf16be.encode [0x74, 0xFEFF, 0x21E33]).run defaultOutOfRange)).run
      defaultInvalidByte = [0x74, 0xFEFF, 0x21E33] ∧
    (Variant.utf16le.decode
        ((Variant.utf16le.encode [0x74, 0xFEFF, 0x21E33]).run defaultOutOfRange)).run
      defaultInvalidByte = [0x74, 0xFEFF, 0x21E33] ∧
    (Variant.utf16.decode
        ((Variant.utf16.encode [0x74, 0xFEFF, 0x21E33]).run defaultOutOfRange)).run
      defaultInvalidByte = [0x74, 0xFEFF, 0x21E33]) :=
  ⟨by decide, c1_round_trip [0x74, 0xFEFF, 0x21E33] (by decide)⟩

/-- Claim C4 (code bug): a clean, even-length stream that ends right after a
lead-surrogate unit terminates with NO output for the orphan lead and the
error-resolution policy is never consulted — the source silently drops the
held lead at end of stream (utf16.rs line 157), while the spec requires an
orphan-surrogate error (replacement character under the default policy).
The third conjunct shows that even a policy answering `FailDecoding` to
every event is not invoked: `next` still ends cleanly. -/
theorem c4_orphan_lead_dropped :
    (Variant.utf16be.decode [0xD8, 0x47]).run defaultInvalidByte = [] ∧
    (Variant.utf16be.decode [0xD8, 0x47]).run (fun _ => .DecodeAs 0x42) = [] ∧
    UTF16Decoder.next (fun _ => .FailDecoding)
        ⟨some [0xD8, 0x47], false, true, none⟩ =
      .ok (none, ⟨some [], false, true, none⟩) :=
  ⟨rfl, rfl, rfl⟩

/-- Claim C5 (corrected): the spec's example scalar is wrong.  Encoding
0x1F8B3 big-endian yields `D8 3E DC B3`, not `D8 47 DE 33`, and decoding
`D8 47 DE 33` yields 0x21E33 (the scalar of the source's test character
'𡸳'), not 0x1F8B3. -/
theorem c5_counterexample :
    (Variant.utf16be.encode [0x1F8B3]).run defaultOutOfRange
        = [0xD8, 0x3E, 0xDC, 0xB3] ∧
    [0xD8, 0x3E, 0xDC, 0xB3] ≠ [0xD8, 0x47, 0xDE, 0x33] ∧
    (Variant.utf16be.decode [0xD8, 0x47, 0xDE, 0x33]).run defaultInvalidByte
        = [0x21E33] ∧
    (0x21E33 : Nat) ≠ 0x1F8B3 :=
  ⟨rfl, by decide, rfl, by decide⟩

/-- Claim C5 as amended: encoding the single scalar 0x21E33 with the
big-endian variant yields exactly `D8 47 DE 33`, and decoding `D8 47 DE 33`
big-endian yields exactly 0x21E33. -/
theorem c5_amended :
    (Variant.utf16be.encode [0x21E33]).run defaultOutOfRange
        = [0xD8, 0x47, 0xDE, 0x33] ∧
    (Variant.utf16be.decode [0xD8, 0x47, 0xDE, 0x33]).run defaultInvalidByte
        = [0x21E33] :=
  ⟨rfl, rfl⟩

/-- Claim C6: encoding with the auto variant always emits `FE FF` first,
followed by the big-endian serialization of the data (the big-endian
encoder's output); decoding that stream with the auto variant yields the
original sequence, and introduces no U+FEFF that was not in the source. -/
theorem c6_auto_bom (s : List Nat) (h : ∀ c ∈ s, is_valid c = true) :
    (Variant.utf16.encode s).run defaultOutOfRange =
      0xFE :: 0xFF :: (Variant.utf16be.encode s).run defaultOutOfRange ∧
    (Variant.utf16.decode ((Variant.utf16.encode s).run defaultOutOfRange)).run
      defaultInvalidByte = s ∧
    (0xFEFF ∉ s →
      0xFEFF ∉ (Variant.utf16.decode
          ((Variant.utf16.encode s).run defaultOutOfRange)).run defaultInvalidByte) := by
  have h1 : (Variant.utf16.encode s).run defaultOutOfRange =
      0xFE :: 0xFF :: (Variant.utf16be.encode s).run defaultOutOfRange := by
    show UTF16Encoder.run defaultOutOfRange ⟨s, true, true, []⟩ =
      0xFE :: 0xFF :: UTF16Encoder.run defaultOutOfRange ⟨s, false, true, []⟩
    rw [encRun_bom]
    simp [u16Bytes]
  have h2 : (Variant.utf16.decode ((Variant.utf16.encode s).run defaultOutOfRange)).run
      defaultInvalidByte = s := by
    rw [h1]
    show UTF16Decoder.run defaultInvalidByte
      ⟨some (0xFE :: 0xFF :: UTF16Encoder.run defaultOutOfRange ⟨s, false, true, []⟩),
        true, true, none⟩ = s
    rw [encRun_encList defaultOutOfRange true s h, decRun_auto_bom]
    have hd := decRun_encList defaultInvalidByte true s h []
    rw [List.append_nil] at hd
    rw [hd, decRun_nil, List.append_nil]
  exact ⟨h1, h2, fun hmem => by rw [h2]; exact hmem⟩

theorem c6_auto_bom_witness :
    (∀ c ∈ [0x74, 0x21E33], is_valid c = true) ∧
    ((Variant.utf16.encode [0x74, 0x21E33]).run defaultOutOfRange =
      0xFE :: 0xFF :: (Variant.utf16be.encode [0x74, 0x21E33]).run defaultOutOfRange ∧
    (Variant.utf16.decode
        ((Variant.utf16.encode [0x74, 0x21E33]).run defaultOutOfRange)).run
      defaultInvalidByte = [0x74, 0x21E33] ∧
    (0xFEFF ∉ [0x74, 0x21E33] →
      0xFEFF ∉ (Variant.utf16.decode
          ((Variant.utf16.encode [0x74, 0x21E33]).run defaultOutOfRange)).run
        defaultInvalidByte)) :=
  ⟨by decide, c6_auto_bom [0x74, 0x21E33] (by decide)⟩

/-- A policy that truncates on the truncated-tail event (`None` payload)
and otherwise substitutes the replacement character. -/
def truncOnTail : Option (List Nat) → InvalidByteResolution
  | none => .TruncateDecoding
  | some _ => .DecodeAsReplacementChar

/-- A policy that answers the truncated-tail event with a caller
substitute (observable in the output). -/
def substOnTail : Option (List Nat) → InvalidByteResolution
  | none => .DecodeAs 0x33
  | some _ => .DecodeAsReplacementChar

/-- A policy that skips on the truncated-tail event. -/
def skipOnTail : Option (List Nat) → InvalidByteResolution
  | none => .SkipInvalidByte
  | some _ => .DecodeAsReplacementChar

/-- Claim C7: decoding an odd-length stream whose complete pairs are all
valid ends at the trailing byte: the default policy appends one replacement
character; a truncate-on-tail policy appends nothing; a caller-substitute
appends that one code point; a skip answer also ends the stream (the source
was already marked exhausted, so there is nothing left to skip to).  The
last conjunct shows the iterator is dropped (`iter = none`) even when the
resolution returns a character. -/
theorem c7_truncated_tail (us : List Nat) (x : Nat)
    (h : ∀ u ∈ us, is_valid u = true) (_hx : x < 256) :
    (Variant.utf16be.decode (encList true us ++ [x])).run defaultInvalidByte
        = us ++ [ReplacementChar] ∧
    (Variant.utf16be.decode (encList true us ++ [x])).run truncOnTail = us ∧
    (Variant.utf16be.decode (encList true us ++ [x])).run substOnTail
        = us ++ [0x33] ∧
    (Variant.utf16be.decode (encList true us ++ [x])).run skipOnTail = us ∧
    UTF16Decoder.next substOnTail ⟨some [x], false, true, none⟩ =
      .ok (some 0x33, ⟨none, false, true, none⟩) := by
  refine ⟨?_, ?_, ?_, ?_, ?_⟩
  · show UTF16Decoder.run defaultInvalidByte
      ⟨some (encList true us ++ [x]), false, true, none⟩ = us ++ [ReplacementChar]
    rw [decRun_encList defaultInvalidByte true us h [x], decRun_single]
    rfl
  · show UTF16Decoder.run truncOnTail
      ⟨some (encList true us ++ [x]), false, true, none⟩ = us
    rw [decRun_encList truncOnTail true us h [x], decRun_single]
    simp [truncOnTail]
  · show UTF16Decoder.run substOnTail
      ⟨some (encList true us ++ [x]), false, true, none⟩ = us ++ [0x33]
    rw [decRun_encList substOnTail true us h [x], decRun_single]
    rfl
  · show UTF16Decoder.run skipOnTail
      ⟨some (encList true us ++ [x]), false, true, none⟩ = us
    rw [decRun_encList skipOnTail true us h [x], decRun_single]
    simp [skipOnTail]
  · simp only [UTF16Decoder.next]
    rw [decodeLoop]
    rfl

theorem c7_truncated_tail_witness :
    ((∀ u ∈ [0x74], is_valid u = true) ∧ 0xD8 < 256) ∧
    ((Variant.utf16be.decode (encList true [0x74] ++ [0xD8])).run defaultInvalidByte
        = [0x74] ++ [ReplacementChar] ∧
    (Variant.utf16be.decode (encList true [0x74] ++ [0xD8])).run truncOnTail
        = [0x74] ∧
    (Variant.utf16be.decode (encList true [0x74] ++ [0xD8])).run substOnTail
        = [0x74] ++ [0x33] ∧
    (Variant.utf16be.decode (encList true [0x74] ++ [0xD8])).run skipOnTail
        = [0x74] ∧
    UTF16Decoder.next substOnTail ⟨some [0xD8], false, true, none⟩ =
      .ok (some 0x33, ⟨none, false, true, none⟩)) :=
  ⟨⟨by decide, by decide⟩, c7_truncated_tail [0x74] 0xD8 (by decide) (by decide)⟩

/-- Claim C8: a unit `0xFEFF` that is not the first unit of the stream
decodes literally as U+FEFF, both for the explicit big-endian variant and
for the auto variant once its one-time BOM check consumed a first unit that
is neither `0xFEFF` nor `0xFFFE`. -/
theorem c8_midstream_feff (us vs : List Nat) (u0 : Nat)
    (hus : ∀ u ∈ us, is_valid u = true) (hvs : ∀ u ∈ vs, is_valid u = true)
    (h0 : is_valid u0 = true) (h0a : u0 ≠ 0xFEFF) (h0b : u0 ≠ 0xFFFE) :
    (Variant.utf16be.decode (encList true (us ++ 0xFEFF :: vs))).run
        defaultInvalidByte = us ++ 0xFEFF :: vs ∧
    (Variant.utf16.decode (encList true (u0 :: (us ++ 0xFEFF :: vs)))).run
        defaultInvalidByte = u0 :: (us ++ 0xFEFF :: vs) := by
  have hall : ∀ u ∈ us ++ 0xFEFF :: vs, is_valid u = true := by
    intro u hu
    rcases List.mem_append.mp hu with hu | hu
    · exact hus u hu
    · rcases List.mem_cons.mp hu with hu | hu
      · subst hu; decide
      · exact hvs u hu
  have hbe : UTF16Decoder.run defaultInvalidByte
      ⟨some (encList true (us ++ 0xFEFF :: vs)), false, true, none⟩
        = us ++ 0xFEFF :: vs := by
    have hd := decRun_encList defaultInvalidByte true (us ++ 0xFEFF :: vs) hall []
    rw [List.append_nil] at hd
    rw [hd, decRun_nil, List.append_nil]
  refine ⟨hbe, ?_⟩
  show UTF16Decoder.run defaultInvalidByte
    ⟨some (encList true (u0 :: (us ++ 0xFEFF :: vs))), true, true, none⟩
      = u0 :: (us ++ 0xFEFF :: vs)
  rw [encList, decRun_eq]
  have hn : UTF16Decoder.next defaultInvalidByte
      ⟨some (encodeCharBytes true u0 ++ encList true (us ++ 0xFEFF :: vs)),
        true, true, none⟩ =
      .ok (some u0,
        ⟨some (encList true (us ++ 0xFEFF :: vs)), false, true, none⟩) := by
    simp only [UTF16Decoder.next]
    rw [decodeLoop_encodeChar_bom defaultInvalidByte u0 _ h0 h0a h0b]
  rw [hn]
  simp only
  rw [hbe]

theorem c8_midstream_feff_witness :
    ((∀ u ∈ [0x74], is_valid u = true) ∧ (∀ u ∈ [0x65], is_valid u = true) ∧
      is_valid 0x41 = true ∧ (0x41 : Nat) ≠ 0xFEFF ∧ (0x41 : Nat) ≠ 0xFFFE) ∧
    ((Variant.utf16be.decode (encList true ([0x74] ++ 0xFEFF :: [0x65]))).run
        defaultInvalidByte = [0x74] ++ 0xFEFF :: [0x65] ∧
    (Variant.utf16.decode (encList true (0x41 :: ([0x74] ++ 0xFEFF :: [0x65])))).run
        defaultInvalidByte = 0x41 :: ([0x74] ++ 0xFEFF :: [0x65])) :=
  ⟨⟨by decide, by decide, by decide, by decide, by decide⟩,
   c8_midstream_feff [0x74] [0x65] 0x41 (by decide) (by decide) (by decide)
     (by decide) (by decide)⟩

/-- Claim C2 is refuted: with a policy answering `TruncateDecoding`, the
two-leads-in-a-row event on `D8 00 D8 00` makes `next` return no output
while leaving the iterator ALIVE on the remaining bytes `00 41` and the
carried slot empty; the following call then produces the character 0x41 —
end-of-stream was not permanent and the resurrected output is not a
carried-slot drain. -/
theorem c2_counterexample :
    UTF16Decoder.next (fun _ => .TruncateDecoding)
        ⟨some [0xD8, 0x00, 0xD8, 0x00, 0x00, 0x41], false, true, none⟩ =
      .ok (none, ⟨some [0x00, 0x41], false, true, none⟩) ∧
    UTF16Decoder.next (fun _ => .TruncateDecoding)
        ⟨some [0x00, 0x41], false, true, none⟩ =
      .ok (some 0x41, ⟨some [], false, true, none⟩) :=
  ⟨rfl, rfl⟩

/-- Claim C2 as amended: under the DEFAULT policy end-of-stream is sticky —
whenever `next` reports no output, the state it leaves behind reports no
output forever (its carried slot is already empty); and the truncated-tail
event (a lone trailing byte) drops the iterator for EVERY policy and every
resolution, before the resolution is acted on.  A `TruncateDecoding`
resolution for an invalid or orphan surrogate, by contrast, leaves the
iterator alive (see the counterexample). -/
theorem c2_amended :
    (∀ (d d2 : UTF16Decoder),
        d.next defaultInvalidByte = .ok (none, d2) →
        d2.next defaultInvalidByte = .ok (none, d2)) ∧
    (∀ (p : Option (List Nat) → InvalidByteResolution) (x : Nat) (bom big : Bool)
        (r : Option Nat) (d2 : UTF16Decoder),
        UTF16Decoder.next p ⟨some [x], bom, big, none⟩ = .ok (r, d2) →
        d2.iter = none) := by
  constructor
  · intro d d2 h
    obtain ⟨it, bom, big, c⟩ := d
    cases c with
    | some c0 => simp [UTF16Decoder.next] at h
    | none =>
      cases it with
      | none =>
        simp only [UTF16Decoder.next] at h
        simp at h
        subst h
        simp [UTF16Decoder.next]
      | some bytes =>
        simp only [UTF16Decoder.next] at h
        cases hd : decodeLoop defaultInvalidByte bom big none none bytes with
        | dfail => rw [hd] at h; simp at h
        | yield ch rest bom2 big2 c2 => rw [hd] at h; simp at h
        | done rest bom2 big2 c2 =>
          rw [hd] at h
          simp at h
          obtain ⟨hrest, hc2⟩ := decodeLoop_done_default bytes.length bytes
            (Nat.le_refl _) bom big none none rest bom2 big2 c2 hd
          subst hrest
          subst hc2
          subst h
          simp [UTF16Decoder.next, decodeLoop]
  · intro p x bom big r d2 h
    simp only [UTF16Decoder.next] at h
    rw [decodeLoop] at h
    cases hp : p none <;> rw [hp] at h <;> simp at h <;>
      (obtain ⟨h1, h2⟩ := h; subst h2; rfl)

theorem c2_amended_witness :
    UTF16Decoder.next defaultInvalidByte
        (⟨none, false, true, none⟩ : UTF16Decoder) =
      .ok (none, (⟨none, false, true, none⟩ : UTF16Decoder)) ∧
    ((⟨none, false, true, none⟩ : UTF16Decoder)).iter = none :=
  ⟨c2_amended.1 ⟨none, false, true, none⟩ ⟨none, false, true, none⟩ rfl,
   c2_amended.2 defaultInvalidByte 0 false true (some ReplacementChar)
     ⟨none, false, true, none⟩ rfl⟩

/-- A policy whose `DecodeAs` answer reconstructs the 16-bit unit of the raw
byte pair it was handed — it makes the payload of the `invalid_byte` event
observable in the output. -/
def reportBytes : Option (List Nat) → InvalidByteResolution
  | some (a :: b :: _) => .DecodeAs (a * 256 + b)
  | _ => .DecodeAsReplacementChar

/-- Claim C3 is refuted: on two leads in a row (`D8 47` then `D8 48`), the
error-resolution policy receives the byte pair of the NEWER lead (the
payload-reporting policy returns 0xD848, not 0xD847), and under a skipping
policy it is the EARLIER lead 0xD847 that stays held and pairs with a
following trail `DC 00` into 0x21C00 (had the newer lead 0xD848 been
retained, the result would have been 0x22000). -/
theorem c3_counterexample :
    UTF16Decoder.next reportBytes
        ⟨some [0xD8, 0x47, 0xD8, 0x48], false, true, none⟩ =
      .ok (some 0xD848, ⟨some [], false, true, none⟩) ∧
    (0xD848 : Nat) ≠ 0xD847 ∧
    UTF16Decoder.run (fun _ => .SkipInvalidByte)
        (Variant.utf16be.decode [0xD8, 0x47, 0xD8, 0x48, 0xDC, 0x00])
      = [0x21C00] ∧
    (0x21C00 : Nat) ≠ 0x22000 :=
  ⟨rfl, by decide, rfl, by decide⟩

/-- Claim C3 as amended: when a high surrogate arrives while a lead is
already held, the policy is invoked with the raw byte pair of the NEWER
unit (first conjunct: the payload-reporting policy returns the newer lead's
unit), and under a resolution that continues the loop (skip) the EARLIER
lead remains the lead-in-waiting (second conjunct: it pairs with a
following trail). -/
theorem c3_amended (l1 l2 tr : Nat)
    (h1 : 0xD800 ≤ l1) (h1b : l1 ≤ 0xDBFF)
    (h2 : 0xD800 ≤ l2) (h2b : l2 ≤ 0xDBFF)
    (h3 : 0xDC00 ≤ tr) (h3b : tr ≤ 0xDFFF) :
    UTF16Decoder.next reportBytes
        ⟨some (u16Bytes true l1 ++ u16Bytes true l2), false, true, none⟩ =
      .ok (some l2, ⟨some [], false, true, none⟩) ∧
    UTF16Decoder.next (fun _ => .SkipInvalidByte)
        ⟨some (u16Bytes true l1 ++ (u16Bytes true l2 ++ u16Bytes true tr)),
          false, true, none⟩ =
      .ok (some ((((l1 - 0xD800) <<< 10) ||| (tr - 0xDC00)) + 0x10000),
        ⟨some [], false, true, none⟩) := by
  constructor
  · simp only [u16Bytes, if_pos, List.cons_append, List.nil_append,
      UTF16Decoder.next]
    rw [decodeLoop]
    rw [if_neg (by simp), if_neg (by simp)]
    rw [combine_split_big l1 (by omega)]
    rw [if_pos (by omega)]
    rw [decodeLoop]
    rw [if_neg (by simp), if_neg (by simp)]
    rw [combine_split_big l2 (by omega)]
    rw [if_pos (by omega)]
    rw [show reportBytes (some [l2 / 256 % 256, l2 % 256]) =
        .DecodeAs (l2 / 256 % 256 * 256 + l2 % 256) from rfl]
    rw [show l2 / 256 % 256 * 256 + l2 % 256 = l2 from by omega]
  · simp only [u16Bytes, if_pos, List.cons_append, List.nil_append,
      UTF16Decoder.next]
    rw [decodeLoop]
    rw [if_neg (by simp), if_neg (by simp)]
    rw [combine_split_big l1 (by omega)]
    rw [if_pos (by omega)]
    rw [decodeLoop]
    rw [if_neg (by simp), if_neg (by simp)]
    rw [combine_split_big l2 (by omega)]
    rw [if_pos (by omega)]
    rw [decodeLoop]
    rw [if_neg (by simp), if_neg (by simp)]
    rw [combine_split_big tr (by omega)]
    rw [if_neg (by omega), if_pos (by omega)]

theorem c3_amended_witness :
    ((0xD800 : Nat) ≤ 0xD847 ∧ (0xD847 : Nat) ≤ 0xDBFF ∧
      (0xD800 : Nat) ≤ 0xD848 ∧ (0xD848 : Nat) ≤ 0xDBFF ∧
      (0xDC00 : Nat) ≤ 0xDC00 ∧ (0xDC00 : Nat) ≤ 0xDFFF) ∧
    (UTF16Decoder.next reportBytes
        ⟨some (u16Bytes true 0xD847 ++ u16Bytes true 0xD848), false, true, none⟩ =
      .ok (some 0xD848, ⟨some [], false, true, none⟩) ∧
    UTF16Decoder.next (fun _ => .SkipInvalidByte)
        ⟨some (u16Bytes true 0xD847 ++ (u16Bytes true 0xD848 ++ u16Bytes true 0xDC00)),
          false, true, none⟩ =
      .ok (some ((((0xD847 - 0xD800) <<< 10) ||| (0xDC00 - 0xDC00)) + 0x10000),
        ⟨some [], false, true, none⟩)) :=
  ⟨⟨by decide, by decide, by decide, by decide, by decide, by decide⟩,
   c3_amended 0xD847 0xD848 0xDC00 (by decide) (by decide) (by decide)
     (by decide) (by decide) (by decide)⟩

/-- Claim C9 is refuted at a source reporting lower bound `uint::max_value`:
the decoder's lower bound is then `uint::max_value` itself (the saturation
marker is preserved), not `uint::max_value / 4` as the claim's formula
demands. -/
theorem c9_counterexample :
    (UTF16Decoder.size_hint ⟨some [], false, true, none⟩ (uintMax, none)).1
      = uintMax ∧
    uintMax ≠ uintMax / 4 :=
  ⟨rfl, by decide⟩

/-- Claim C9 as amended: for a live decoder over a source reporting
`(lo, hi)`, the lower bound is `lo / 4` whenever `lo` is below
`uint::max_value` (at `uint::max_value` it stays `uint::max_value`), and
the upper bound is `hi / 2` rounded up whenever `hi` is bounded. -/
theorem c9_amended (bytes : List Nat) (bom big : Bool) (c : Option Nat)
    (lo : Nat) (hi : Option Nat) (hlo : lo < uintMax) :
    UTF16Decoder.size_hint ⟨some bytes, bom, big, c⟩ (lo, hi) =
      (lo / 4, hi.map fun x => (x + 1) / 2) ∧
    UTF16Decoder.size_hint ⟨some bytes, bom, big, c⟩ (uintMax, hi) =
      (uintMax, hi.map fun x => (x + 1) / 2) := by
  have hhi : (hi.map fun x => x / 2 + x % 2) = hi.map fun x => (x + 1) / 2 := by
    cases hi with
    | none => rfl
    | some x =>
      simp only [Option.map]
      rw [show x / 2 + x % 2 = (x + 1) / 2 from by omega]
  constructor
  · simp only [UTF16Decoder.size_hint]
    rw [if_neg (Nat.ne_of_lt hlo), hhi]
  · simp only [UTF16Decoder.size_hint, if_true]
    rw [hhi]

theorem c9_amended_witness :
    (0 : Nat) < uintMax ∧
    (UTF16Decoder.size_hint ⟨some [], false, true, none⟩ (0, some 5) =
      (0 / 4, (some 5).map fun x => (x + 1) / 2) ∧
    UTF16Decoder.size_hint ⟨some [], false, true, none⟩ (uintMax, some 5) =
      (uintMax, (some 5).map fun x => (x + 1) / 2)) :=
  ⟨by decide, c9_amended [] false true none 0 (some 5) (by decide)⟩

/-- Claim C10 is refuted under `SkipInvalidByte`: on
`D8 00 | 00 41 | 00 42`, the ordinary character 0x41 is stored into the
carried slot, but the loop continues with the lead still held and the next
ordinary unit OVERWRITES the slot with 0x42; the call returns no output
with `c = some 0x42`, the next call returns 0x42, and the session is then
(with the empty iterator and empty slot a fixed point of `next`) finished —
0x41 is never returned by any call. -/
theorem c10_counterexample :
    UTF16Decoder.next (fun _ => .SkipInvalidByte)
        ⟨some [0xD8, 0x00, 0x00, 0x41, 0x00, 0x42], false, true, none⟩ =
      .ok (none, ⟨some [], false, true, some 0x42⟩) ∧
    UTF16Decoder.next (fun _ => .SkipInvalidByte)
        ⟨some [], false, true, some 0x42⟩ =
      .ok (some 0x42, ⟨some [], false, true, none⟩) ∧
    UTF16Decoder.next (fun _ => .SkipInvalidByte)
        ⟨some [], false, true, none⟩ =
      .ok (none, ⟨some [], false, true, none⟩) ∧
    (0x42 : Nat) ≠ 0x41 :=
  ⟨rfl, rfl, rfl, by decide⟩

/-- The code point directly produced by an `invalid_byte` resolution. -/
def resOut : InvalidByteResolution → Option Nat
  | .DecodeAsReplacementChar => some ReplacementChar
  | .DecodeAs ch => some ch
  | _ => none

/-- Claim C10 as amended: when an ordinary unit arrives while a lead is
held, the ordinary character is stored into the carried slot before the
policy is invoked, and for every resolution other than `SkipInvalidByte`
and `FailDecoding` (including `TruncateDecoding`, which itself yields no
character) that character is returned by the very next call; under
`SkipInvalidByte` the loop instead continues with the lead still held and a
later orphan-lead event may overwrite the slot (see the counterexample). -/
theorem c10_amended (l u : Nat) (r : InvalidByteResolution)
    (hl : 0xD800 ≤ l) (hlb : l ≤ 0xDBFF) (hu : u < 0x10000)
    (hns : ¬(0xD800 ≤ u ∧ u ≤ 0xDFFF))
    (hr1 : r ≠ .SkipInvalidByte) (hr2 : r ≠ .FailDecoding) :
    UTF16Decoder.next (fun _ => r)
        ⟨some (u16Bytes true l ++ u16Bytes true u), false, true, none⟩ =
      .ok (resOut r, ⟨some [], false, true, some u⟩) ∧
    UTF16Decoder.next (fun _ => r) ⟨some [], false, true, some u⟩ =
      .ok (some u, ⟨some [], false, true, none⟩) := by
  constructor
  · simp only [u16Bytes, if_pos, List.cons_append, List.nil_append,
      UTF16Decoder.next]
    rw [decodeLoop]
    rw [if_neg (by simp), if_neg (by simp)]
    rw [combine_split_big l (by omega)]
    rw [if_pos (by omega)]
    rw [decodeLoop]
    rw [if_neg (by simp), if_neg (by simp)]
    rw [combine_split_big u (by omega)]
    rw [if_neg (by omega), if_neg (by omega)]
    cases r with
    | DecodeAsReplacementChar => rfl
    | DecodeAs ch => rfl
    | SkipInvalidByte => exact absurd rfl hr1
    | TruncateDecoding => rfl
    | FailDecoding => exact absurd rfl hr2
  · rfl

theorem c10_amended_witness :
    ((0xD800 : Nat) ≤ 0xD800 ∧ (0xD800 : Nat) ≤ 0xDBFF ∧ (0x41 : Nat) < 0x10000 ∧
      ¬((0xD800 : Nat) ≤ 0x41 ∧ (0x41 : Nat) ≤ 0xDFFF) ∧
      InvalidByteResolution.TruncateDecoding ≠ .SkipInvalidByte ∧
      InvalidByteResolution.TruncateDecoding ≠ .FailDecoding) ∧
    (UTF16Decoder.next (fun _ => InvalidByteResolution.TruncateDecoding)
        ⟨some (u16Bytes true 0xD800 ++ u16Bytes true 0x41), false, true, none⟩ =
      .ok (resOut .TruncateDecoding, ⟨some [], false, true, some 0x41⟩) ∧
    UTF16Decoder.next (fun _ => InvalidByteResolution.TruncateDecoding)
        ⟨some [], false, true, some 0x41⟩ =
      .ok (some 0x41, ⟨some [], false, true, none⟩)) :=
  ⟨⟨by decide, by decide, by decide, by decide, by decide, by decide⟩,
   c10_amended 0xD800 0x41 .TruncateDecoding (by decide) (by decide) (by decide)
     (by decide) (by decide) (by decide)⟩

end Utf16
